import Mathlib

/-!
# GodEater1-2Fix — verification of the patch-engine specification

A shallow embedding of `src/dllmain.cpp` (the runtime binary-patching engine
for God Eater 1/2) together with proofs about the embedded definitions.

The numeric layer models IEEE-754 binary32 ("f32") arithmetic over `ℚ`:
a float value is represented by the exact rational it denotes, and each
operation rounds its exact rational result to the nearest representable
binary32 value (ties to even), exactly as the hardware does for the
in-range values that arise in this program.
-/

set_option maxRecDepth 8000

/- `Batteries` marks the arithmetic on `ℚ` irreducible, which blocks
`decide` on concrete rational computations; restore the default
reducibility so the guards and formulas below evaluate. -/
set_option allowUnsafeReducibility true in
attribute [semireducible] Rat.mul Rat.add Rat.sub Rat.inv Rat.div Rat.ofScientific

/-! ## IEEE-754 binary32 model over ℚ -/

/-- Round a rational to the nearest integer, ties to even
(the IEEE-754 default rounding of a scaled mantissa). -/
def rne (x : ℚ) : ℤ :=
  if x - ⌊x⌋ < 1/2 then ⌊x⌋
  else if 1/2 < x - ⌊x⌋ then ⌊x⌋ + 1
  else if ⌊x⌋ % 2 = 0 then ⌊x⌋ else ⌊x⌋ + 1

/-- Fuel-driven floor-of-log₂ on naturals (structural recursion, so both the
elaborator and the kernel can evaluate it on literals). -/
def log2fuel : ℕ → ℕ → ℕ
  | 0, _ => 0
  | fuel+1, n => if n ≤ 1 then 0 else log2fuel fuel (n / 2) + 1

/-- Floor of log₂ of a natural number (`natLog2 0 = 0` by convention). -/
def natLog2 (n : ℕ) : ℕ := log2fuel n n

/-- Floor of log₂ of a positive rational, as an integer. -/
def qlog2 (a : ℚ) : ℤ :=
  if a < 2 ^ ((natLog2 a.num.toNat : ℤ) - (natLog2 a.den : ℤ))
  then (natLog2 a.num.toNat : ℤ) - (natLog2 a.den : ℤ) - 1
  else (natLog2 a.num.toNat : ℤ) - (natLog2 a.den : ℤ)

/-- Round a rational to the nearest IEEE-754 binary32 value (round to
nearest, ties to even), including the subnormal range; the result is the
exact rational denoted by the resulting float.  Overflow to infinity is not
modelled (no value in this program comes near 2^128). -/
def roundF32 (q : ℚ) : ℚ :=
  if q = 0 then 0 else
  (if q < 0 then (-1 : ℚ) else 1)
    * (rne (|q| * 2 ^ ((23 : ℤ) - max (qlog2 |q|) (-126))) : ℚ)
    * 2 ^ (max (qlog2 |q|) (-126) - 23)

/-- `static_cast<f32>` of an unsigned 32-bit integer. -/
def f32ofNat (n : ℕ) : ℚ := roundF32 n

/-- binary32 multiplication. -/
def f32mul (a b : ℚ) : ℚ := roundF32 (a * b)

/-- binary32 division (division by zero is left at 0; the program never
divides by zero on the paths verified here). -/
def f32div (a b : ℚ) : ℚ := if b = 0 then 0 else roundF32 (a / b)

/-- `static_cast<u32>` of a nonnegative binary32 value: truncation toward
zero. -/
def u32ofF32 (q : ℚ) : ℕ := (⌊q⌋).toNat

/-- Bit pattern (as a natural number) of a representable, normal binary32
value; used to model a 32-bit float store into raw memory. -/
def f32bits (q : ℚ) : ℕ :=
  if q = 0 then 0 else
  (if q < 0 then 1 else 0) * 2 ^ 31
    + (qlog2 |q| + 127).toNat * 2 ^ 23
    + ((|q| * 2 ^ ((23 : ℤ) - qlog2 |q|)).num.toNat - 2 ^ 23)

/-! ## Facts about the rounding primitives -/

theorem rne_int_add (n : ℤ) (f : ℚ) (h0 : 0 ≤ f) (h1 : f < 1/2) :
    rne ((n : ℚ) + f) = n := by
  have hfl : ⌊(n : ℚ) + f⌋ = n := by
    rw [Int.floor_eq_iff]
    refine ⟨by linarith, by linarith⟩
  simp only [rne, hfl, add_sub_cancel_left]
  rw [if_pos h1]

theorem rne_intCast (n : ℤ) : rne (n : ℚ) = n := by
  have h := rne_int_add n 0 le_rfl (by norm_num)
  simpa using h

theorem rne_nonneg (x : ℚ) (hx : 0 ≤ x) : 0 ≤ rne x := by
  have h : 0 ≤ ⌊x⌋ := Int.floor_nonneg.2 hx
  simp only [rne]
  split_ifs <;> omega

theorem rne_le (x : ℚ) (B : ℤ) (h : x < B) : rne x ≤ B := by
  have h1 : ⌊x⌋ < B := Int.floor_lt.2 h
  simp only [rne]
  split_ifs <;> omega

theorem log2fuel_bracket : ∀ (fuel n : ℕ), 1 ≤ n → n ≤ fuel →
    2 ^ log2fuel fuel n ≤ n ∧ n < 2 ^ (log2fuel fuel n + 1)
  | 0, _, h1, h2 => by omega
  | fuel+1, n, h1, h2 => by
    unfold log2fuel
    by_cases hn : n ≤ 1
    · have hone : n = 1 := by omega
      subst hone; simp
    · have hrec := log2fuel_bracket fuel (n / 2) (by omega) (by omega)
      rw [if_neg hn]
      have hpow : 2 ^ (log2fuel fuel (n / 2) + 1) = 2 * 2 ^ log2fuel fuel (n / 2) := by
        ring
      have hpow2 : 2 ^ (log2fuel fuel (n / 2) + 1 + 1) =
          4 * 2 ^ log2fuel fuel (n / 2) := by ring
      omega

theorem natLog2_bracket (n : ℕ) (h : 1 ≤ n) :
    2 ^ natLog2 n ≤ n ∧ n < 2 ^ (natLog2 n + 1) :=
  log2fuel_bracket n n h le_rfl

theorem qlog2_bracket (a : ℚ) (ha : 0 < a) :
    2 ^ qlog2 a ≤ a ∧ a < 2 ^ (qlog2 a + 1) := by
  have hz : (2:ℚ) ≠ 0 := two_ne_zero
  have hnum : 0 < a.num := Rat.num_pos.2 ha
  have hn1 : 1 ≤ a.num.toNat := by omega
  have hd1 : 1 ≤ a.den := a.pos
  obtain ⟨hn_lo, hn_hi⟩ := natLog2_bracket a.num.toNat hn1
  obtain ⟨hd_lo, hd_hi⟩ := natLog2_bracket a.den hd1
  set Ln := natLog2 a.num.toNat with hLn
  set Ld := natLog2 a.den with hLd
  have hnq_lo : (2:ℚ) ^ (Ln : ℤ) ≤ (a.num.toNat : ℚ) := by
    rw [zpow_natCast]; exact_mod_cast hn_lo
  have hnq_hi : (a.num.toNat : ℚ) < 2 ^ ((Ln : ℤ) + 1) := by
    rw [show ((Ln : ℤ) + 1) = ((Ln + 1 : ℕ) : ℤ) by push_cast; ring, zpow_natCast]
    exact_mod_cast hn_hi
  have hdq_lo : (2:ℚ) ^ (Ld : ℤ) ≤ (a.den : ℚ) := by
    rw [zpow_natCast]; exact_mod_cast hd_lo
  have hdq_hi : (a.den : ℚ) < 2 ^ ((Ld : ℤ) + 1) := by
    rw [show ((Ld : ℤ) + 1) = ((Ld + 1 : ℕ) : ℤ) by push_cast; ring, zpow_natCast]
    exact_mod_cast hd_hi
  have hdq_pos : (0:ℚ) < (a.den : ℚ) := by exact_mod_cast hd1
  have hcast : ((a.num.toNat : ℕ) : ℚ) = (a.num : ℚ) := by
    have h := Int.toNat_of_nonneg (le_of_lt hnum)
    exact_mod_cast h
  have ha_eq : a = (a.num.toNat : ℚ) / (a.den : ℚ) := by
    rw [hcast]
    exact (Rat.num_div_den a).symm
  have key_lo : (2:ℚ) ^ ((Ln:ℤ) - Ld - 1) < a := by
    rw [ha_eq, lt_div_iff₀ hdq_pos]
    calc (2:ℚ) ^ ((Ln:ℤ) - Ld - 1) * (a.den : ℚ)
        < 2 ^ ((Ln:ℤ) - Ld - 1) * 2 ^ ((Ld:ℤ) + 1) :=
          mul_lt_mul_of_pos_left hdq_hi (by positivity)
      _ = 2 ^ (Ln : ℤ) := by rw [← zpow_add₀ hz]; congr 1; ring
      _ ≤ (a.num.toNat : ℚ) := hnq_lo
  have key_hi : a < 2 ^ ((Ln:ℤ) - Ld + 1) := by
    rw [ha_eq, div_lt_iff₀ hdq_pos]
    calc (a.num.toNat : ℚ) < 2 ^ ((Ln:ℤ) + 1) := hnq_hi
      _ = 2 ^ ((Ln:ℤ) - Ld + 1) * 2 ^ (Ld : ℤ) := by
          rw [← zpow_add₀ hz]; congr 1; ring
      _ ≤ 2 ^ ((Ln:ℤ) - Ld + 1) * (a.den : ℚ) :=
          mul_le_mul_of_nonneg_left hdq_lo (by positivity)
  unfold qlog2
  rw [← hLn, ← hLd]
  split_ifs with hlt
  · refine ⟨le_of_lt ?_, ?_⟩
    · exact key_lo
    · rw [show ((Ln:ℤ) - Ld - 1 + 1) = ((Ln:ℤ) - Ld) by ring]
      exact hlt
  · exact ⟨not_lt.1 hlt, key_hi⟩

theorem qlog2_unique (a : ℚ) (e : ℤ) (h1 : (2:ℚ) ^ e ≤ a) (h2 : a < 2 ^ (e + 1)) :
    qlog2 a = e := by
  have ha : 0 < a := lt_of_lt_of_le (by positivity) h1
  obtain ⟨hlo, hhi⟩ := qlog2_bracket a ha
  by_contra hne
  rcases lt_or_gt_of_ne hne with hlt | hgt
  · have h3 : (2:ℚ) ^ (qlog2 a + 1) ≤ 2 ^ e :=
      (zpow_le_zpow_iff_right₀ (by norm_num : (1:ℚ) < 2)).2 (by omega)
    linarith
  · have h3 : (2:ℚ) ^ (e + 1) ≤ 2 ^ qlog2 a :=
      (zpow_le_zpow_iff_right₀ (by norm_num : (1:ℚ) < 2)).2 (by omega)
    linarith

theorem roundF32_zero : roundF32 0 = 0 := by
  simp [roundF32]

theorem roundF32_neg (q : ℚ) : roundF32 (-q) = - roundF32 q := by
  rcases lt_trichotomy q 0 with hq | hq | hq
  · have hq0 : q ≠ 0 := ne_of_lt hq
    have hnq0 : -q ≠ 0 := by simpa using hq0
    have h1 : ¬ (-q < 0) := by linarith
    simp only [roundF32, if_neg hq0, if_neg hnq0, if_pos hq, if_neg h1, abs_neg]
    ring
  · subst hq; simp [roundF32]
  · have hq0 : q ≠ 0 := ne_of_gt hq
    have hnq0 : -q ≠ 0 := by simpa using hq0
    have h1 : -q < 0 := by linarith
    have h2 : ¬ (q < 0) := by linarith
    simp only [roundF32, if_neg hq0, if_neg hnq0, if_pos h1, if_neg h2, abs_neg]
    ring

theorem roundF32_fix_core (m : ℕ) (e : ℤ) (hm0 : 0 < m) (hm : m < 2 ^ 24)
    (he : -126 ≤ e) :
    roundF32 ((m : ℚ) * 2 ^ (e - 23)) = (m : ℚ) * 2 ^ (e - 23) := by
  have hz : (2:ℚ) ≠ 0 := two_ne_zero
  have hmq : (0:ℚ) < (m:ℚ) := by exact_mod_cast hm0
  have hvpos : (0:ℚ) < (m : ℚ) * 2 ^ (e - 23) := by positivity
  have hvne : (m : ℚ) * 2 ^ (e - 23) ≠ 0 := ne_of_gt hvpos
  have hvnlt : ¬ ((m : ℚ) * 2 ^ (e - 23) < 0) := not_lt.2 hvpos.le
  have habs : |(m : ℚ) * 2 ^ (e - 23)| = (m : ℚ) * 2 ^ (e - 23) := abs_of_pos hvpos
  have hm24 : (m : ℚ) < 2 ^ ((24:ℕ) : ℤ) := by
    rw [zpow_natCast]; exact_mod_cast hm
  have hva : (m : ℚ) * 2 ^ (e - 23) < 2 ^ (e + 1) := by
    calc (m : ℚ) * 2 ^ (e - 23) < 2 ^ ((24:ℕ):ℤ) * 2 ^ (e - 23) :=
          mul_lt_mul_of_pos_right hm24 (by positivity)
      _ = 2 ^ (e + 1) := by rw [← zpow_add₀ hz]; congr 1; push_cast; ring
  obtain ⟨hlo, hhi⟩ := qlog2_bracket _ hvpos
  have hL : qlog2 ((m : ℚ) * 2 ^ (e - 23)) ≤ e := by
    have h1 : (2:ℚ) ^ qlog2 ((m : ℚ) * 2 ^ (e - 23)) < 2 ^ (e + 1) :=
      lt_of_le_of_lt hlo hva
    have h2 := (zpow_lt_zpow_iff_right₀ (by norm_num : (1:ℚ) < 2)).1 h1
    omega
  set L := qlog2 ((m : ℚ) * 2 ^ (e - 23)) with hLdef
  set e2 := max L (-126) with he2def
  have he2 : e2 ≤ e := max_le hL he
  have hk : ((e - e2).toNat : ℤ) = e - e2 := Int.toNat_of_nonneg (by omega)
  have hscaled : (m : ℚ) * 2 ^ (e - 23) * 2 ^ ((23:ℤ) - e2)
      = (((m * 2 ^ (e - e2).toNat : ℕ) : ℤ) : ℚ) := by
    push_cast
    rw [mul_assoc, ← zpow_add₀ hz, ← zpow_natCast (2:ℚ) ((e - e2).toNat), hk]
    congr 1
    ring
  have hrne : rne ((m : ℚ) * 2 ^ (e - 23) * 2 ^ ((23:ℤ) - e2))
      = ((m * 2 ^ (e - e2).toNat : ℕ) : ℤ) := by
    rw [hscaled, rne_intCast]
  unfold roundF32
  rw [if_neg hvne, if_neg hvnlt, habs, ← hLdef, ← he2def, hrne, ← hscaled, one_mul,
    mul_assoc ((m:ℚ) * 2 ^ (e - 23)), ← zpow_add₀ hz,
    show ((23:ℤ) - e2 + (e2 - 23)) = 0 by ring, zpow_zero, mul_one]

theorem roundF32_fix (m : ℕ) (e : ℤ) (hm : m ≤ 2 ^ 24) (he : -126 ≤ e) :
    roundF32 ((m : ℚ) * 2 ^ (e - 23)) = (m : ℚ) * 2 ^ (e - 23) := by
  rcases Nat.eq_zero_or_pos m with h0 | hpos
  · subst h0; simp [roundF32]
  · rcases eq_or_lt_of_le hm with heq | hlt
    · have hrw : ((m : ℚ)) * 2 ^ (e - 23) = ((2 ^ 23 : ℕ) : ℚ) * 2 ^ (e + 1 - 23) := by
        subst heq
        rw [show (((2:ℕ) ^ 24 : ℕ) : ℚ) = (2:ℚ) ^ (((24:ℕ)):ℤ) by norm_num,
          show (((2:ℕ) ^ 23 : ℕ) : ℚ) = (2:ℚ) ^ (((23:ℕ)):ℤ) by norm_num,
          ← zpow_add₀ two_ne_zero, ← zpow_add₀ two_ne_zero]
        congr 1
        push_cast
        ring
      rw [hrw]
      exact roundF32_fix_core (2^23) (e+1) (by positivity) (by norm_num) (by omega)
    · exact roundF32_fix_core m e hpos hlt he

theorem roundF32_natCast (n : ℕ) (h : n ≤ 2 ^ 24) : roundF32 (n : ℚ) = n := by
  have h1 := roundF32_fix n 23 h (by norm_num)
  simpa using h1

theorem f32ofNat_eq (n : ℕ) (h : n ≤ 2 ^ 24) : f32ofNat n = n :=
  roundF32_natCast n h

theorem roundF32_fix_int (k : ℤ) (e : ℤ) (hk : k.natAbs ≤ 2 ^ 24) (he : -126 ≤ e) :
    roundF32 ((k : ℚ) * 2 ^ (e - 23)) = (k : ℚ) * 2 ^ (e - 23) := by
  rcases le_or_lt 0 k with hpos | hneg
  · have hc : ((k.toNat : ℕ) : ℚ) = (k:ℚ) := by
      exact_mod_cast Int.toNat_of_nonneg hpos
    rw [← hc]
    exact roundF32_fix k.toNat e (by omega) he
  · have habs : ((k.natAbs : ℕ) : ℚ) = -(k:ℚ) := by
      rw [Int.cast_natAbs]
      exact_mod_cast abs_of_neg hneg
    have h2 : (k:ℚ) * 2 ^ (e-23) = -(((k.natAbs:ℕ):ℚ) * 2 ^ (e-23)) := by
      rw [habs]; ring
    rw [h2, roundF32_neg, roundF32_fix k.natAbs e hk he]

theorem roundF32_idem_pos (q : ℚ) (hq : 0 < q) :
    roundF32 (roundF32 q) = roundF32 q := by
  have hz : (2:ℚ) ≠ 0 := two_ne_zero
  have hvne : q ≠ 0 := ne_of_gt hq
  have hvnlt : ¬ (q < 0) := not_lt.2 hq.le
  have habs : |q| = q := abs_of_pos hq
  obtain ⟨hlo, hhi⟩ := qlog2_bracket q hq
  set L := qlog2 q with hLdef
  set e2 := max L (-126) with he2def
  have hL2 : L ≤ e2 := le_max_left _ _
  have hub : q * 2 ^ ((23:ℤ) - e2) < (((2:ℤ) ^ 24 : ℤ) : ℚ) := by
    have h1 : q < 2 ^ (e2 + 1) := by
      refine lt_of_lt_of_le hhi ?_
      exact (zpow_le_zpow_iff_right₀ (by norm_num : (1:ℚ) < 2)).2 (by omega)
    calc q * 2 ^ ((23:ℤ) - e2) < 2 ^ (e2 + 1) * 2 ^ ((23:ℤ) - e2) :=
          mul_lt_mul_of_pos_right h1 (by positivity)
      _ = (((2:ℤ) ^ 24 : ℤ) : ℚ) := by
          rw [← zpow_add₀ hz]
          push_cast
          rw [show (e2 + 1 + (23 - e2)) = ((24:ℕ):ℤ) by push_cast; ring, zpow_natCast]
          norm_num
  set M := rne (q * 2 ^ ((23:ℤ) - e2)) with hMdef
  have hM0 : 0 ≤ M := rne_nonneg _ (by positivity)
  have hM : M ≤ 2 ^ 24 := rne_le _ _ hub
  have hval : roundF32 q = (M:ℚ) * 2 ^ (e2 - 23) := by
    unfold roundF32
    rw [if_neg hvne, if_neg hvnlt, habs, ← hLdef, ← he2def, ← hMdef, one_mul]
  rw [hval]
  exact roundF32_fix_int M e2 (by omega) (le_max_right _ _)

theorem roundF32_idem (q : ℚ) : roundF32 (roundF32 q) = roundF32 q := by
  rcases lt_trichotomy q 0 with hq | hq | hq
  · have h1 : roundF32 q = - roundF32 (-q) := by
      rw [← roundF32_neg, neg_neg]
    rw [h1, roundF32_neg, roundF32_idem_pos (-q) (by linarith)]
  · subst hq; simp [roundF32]
  · exact roundF32_idem_pos q hq

theorem f32mul_neg_one (x : ℚ) : f32mul x (-1) = - roundF32 x := by
  unfold f32mul
  rw [show x * (-1) = -x by ring, roundF32_neg]

theorem roundF32_f32div (a b : ℚ) : roundF32 (f32div a b) = f32div a b := by
  unfold f32div
  split_ifs
  · simp [roundF32]
  · exact roundF32_idem _

theorem f32div_mul_neg_one (a b : ℚ) : f32mul (f32div a b) (-1) = - f32div a b := by
  rw [f32mul_neg_one, roundF32_f32div]

theorem roundF32_int_add_small (N : ℕ) (e : ℤ) (f : ℚ)
    (hN1 : (2:ℚ) ^ e ≤ (N:ℚ)) (hN2 : ((N:ℚ) + 1) ≤ 2 ^ (e + 1))
    (he0 : 0 ≤ e) (he : e ≤ 23) (hf0 : 0 ≤ f) (hf : 2 * f < 2 ^ (e - 23)) :
    roundF32 ((N : ℚ) + f) = N := by
  have hz : (2:ℚ) ≠ 0 := two_ne_zero
  have hNpos : (0:ℚ) < (N:ℚ) := lt_of_lt_of_le (by positivity) hN1
  have hqpos : (0:ℚ) < (N:ℚ) + f := by linarith
  have hqne : (N:ℚ) + f ≠ 0 := ne_of_gt hqpos
  have hqnlt : ¬ ((N:ℚ) + f < 0) := not_lt.2 hqpos.le
  have habs : |(N:ℚ) + f| = (N:ℚ) + f := abs_of_pos hqpos
  have hfhalf : f < 1/2 := by
    have h1 : (2:ℚ) ^ (e - 23) ≤ 2 ^ (0:ℤ) :=
      (zpow_le_zpow_iff_right₀ (by norm_num : (1:ℚ) < 2)).2 (by omega)
    have h2 : (2:ℚ) ^ (0:ℤ) = 1 := zpow_zero 2
    linarith
  have hbr1 : (2:ℚ) ^ e ≤ (N:ℚ) + f := by linarith
  have hbr2 : (N:ℚ) + f < 2 ^ (e + 1) := by linarith
  have hL : qlog2 ((N:ℚ) + f) = e := qlog2_unique _ e hbr1 hbr2
  have hk : (((23:ℤ) - e).toNat : ℤ) = 23 - e := Int.toNat_of_nonneg (by omega)
  have hNshift : ((N:ℚ)) * 2 ^ ((23:ℤ) - e)
      = (((N * 2 ^ ((23:ℤ) - e).toNat : ℕ) : ℤ) : ℚ) := by
    push_cast
    rw [← zpow_natCast (2:ℚ) (((23:ℤ) - e).toNat), hk]
  have hfrac0 : 0 ≤ f * 2 ^ ((23:ℤ) - e) := by positivity
  have hfrac1 : f * 2 ^ ((23:ℤ) - e) < 1/2 := by
    have h1 : (2:ℚ) ^ (e - 23) * 2 ^ ((23:ℤ) - e) = 1 := by
      rw [← zpow_add₀ hz]; norm_num
    have h2 : 2 * f * 2 ^ ((23:ℤ) - e) < 2 ^ (e - 23) * 2 ^ ((23:ℤ) - e) :=
      mul_lt_mul_of_pos_right hf (by positivity)
    rw [h1] at h2
    linarith
  have hrne : rne (((N:ℚ) + f) * 2 ^ ((23:ℤ) - e))
      = ((N * 2 ^ ((23:ℤ) - e).toNat : ℕ) : ℤ) := by
    have hexp : ((N:ℚ) + f) * 2 ^ ((23:ℤ) - e)
        = (((N * 2 ^ ((23:ℤ) - e).toNat : ℕ) : ℤ) : ℚ) + f * 2 ^ ((23:ℤ) - e) := by
      rw [← hNshift]; ring
    rw [hexp, rne_int_add _ _ hfrac0 hfrac1]
  unfold roundF32
  rw [if_neg hqne, if_neg hqnlt, habs, hL,
    max_eq_left (by omega : (-126:ℤ) ≤ e), hrne, one_mul]
  push_cast
  rw [← zpow_natCast (2:ℚ) (((23:ℤ) - e).toNat), hk, mul_assoc, ← zpow_add₀ hz,
    show ((23:ℤ) - e + (e - 23)) = 0 by ring, zpow_zero, mul_one]

theorem f32div_natCast_two (n : ℕ) (hn : n ≤ 2 ^ 24) :
    f32div (f32ofNat n) 2 = (n:ℚ) / 2 := by
  unfold f32div
  rw [if_neg (by norm_num : (2:ℚ) ≠ 0), f32ofNat_eq n hn]
  have h1 : ((n:ℚ)) / 2 = (n:ℚ) * 2 ^ ((22:ℤ) - 23) := by
    rw [show ((22:ℤ) - 23) = -1 by ring, zpow_neg, zpow_one, div_eq_mul_inv]
  rw [h1, roundF32_fix n 22 hn (by norm_num)]

theorem u32ofF32_half (n : ℕ) : u32ofF32 ((n:ℚ) / 2) = n / 2 := by
  unfold u32ofF32
  rw [show ((2:ℚ)) = ((2:ℕ):ℚ) by norm_num, Rat.floor_natCast_div_natCast]
  omega

theorem u32ofF32_natCast (n : ℕ) : u32ofF32 (n:ℚ) = n := by
  unfold u32ofF32
  rw [Int.floor_natCast]
  simp

/-! ## `readYml` — derived-value computation (`src/dllmain.cpp` lines 131-133)

The C++ code computes, with `u32` variables on the left-hand sides:
`nativeWidth  = (16.0f / 9.0f) * (f32)height`  — float product, truncated;
`nativeOffset = (f32)(width - nativeWidth) / 2.0f`  — `u32` subtraction wraps
modulo `2^32` before the float conversion;
`widthScalingFactor = (f32)width / (f32)nativeWidth` — a float. -/

/-- The `u32 nativeWidth` computed by `readYml`. -/
def nativeWidthModel (height : ℕ) : ℕ :=
  u32ofF32 (f32mul (f32div 16 9) (f32ofNat height))

/-- The `u32 nativeOffset` computed by `readYml`. -/
def nativeOffsetModel (width height : ℕ) : ℕ :=
  u32ofF32 (f32div (f32ofNat ((width + 2 ^ 32 - nativeWidthModel height) % 2 ^ 32)) 2)

/-- The `f32 widthScalingFactor` computed by `readYml`. -/
def widthScalingFactorModel (width height : ℕ) : ℚ :=
  f32div (f32ofNat width) (f32ofNat (nativeWidthModel height))

theorem f32div_sixteen_ninths : f32div 16 9 = 16/9 + 1/(9 * 8388608) := by decide

theorem nativeWidthModel_exact (t : ℕ) (htpos : 0 < t)
    (hlt : 16 * t < 2 ^ 24) : nativeWidthModel (9 * t) = 16 * t := by
  have hz : (2:ℚ) ≠ 0 := two_ne_zero
  set N : ℕ := 16 * t with hN
  have hNpos : 0 < N := by omega
  have hN24 : N < 2 ^ 24 := hlt
  have hNq : (0:ℚ) < (N:ℚ) := by exact_mod_cast hNpos
  obtain ⟨hlo, hhi⟩ := qlog2_bracket (N:ℚ) hNq
  set e := qlog2 (N:ℚ) with he
  have he0 : 0 ≤ e := by
    by_contra hneg
    have h1 : (2:ℚ) ^ (e + 1) ≤ 2 ^ (0:ℤ) :=
      (zpow_le_zpow_iff_right₀ (by norm_num : (1:ℚ) < 2)).2 (by omega)
    have h2 : (1:ℚ) ≤ (N:ℚ) := by exact_mod_cast hNpos
    rw [zpow_zero] at h1
    linarith
  have he23 : e ≤ 23 := by
    have h1 : (2:ℚ)^e < 2^((24:ℕ):ℤ) := by
      refine lt_of_le_of_lt hlo ?_
      rw [zpow_natCast]
      exact_mod_cast hN24
    have h2 := (zpow_lt_zpow_iff_right₀ (by norm_num : (1:ℚ) < 2)).1 h1
    omega
  have hint : ((N:ℚ) + 1) ≤ 2 ^ (e + 1) := by
    have hk : (((e+1).toNat : ℤ)) = e + 1 := Int.toNat_of_nonneg (by omega)
    have h2 : (2:ℚ) ^ (e+1) = ((2 ^ (e+1).toNat : ℕ) : ℚ) := by
      push_cast
      rw [← zpow_natCast (2:ℚ), hk]
    rw [h2] at hhi ⊢
    have h3 : N < 2 ^ (e+1).toNat := by exact_mod_cast hhi
    have h4 : N + 1 ≤ 2 ^ (e+1).toNat := by omega
    exact_mod_cast h4
  have hofh : f32ofNat (9 * t) = ((9 * t : ℕ) : ℚ) := f32ofNat_eq _ (by omega)
  have hprod : f32div 16 9 * f32ofNat (9 * t) = (N:ℚ) + (t:ℚ)/8388608 := by
    rw [f32div_sixteen_ninths, hofh, hN]
    push_cast
    ring
  have hf : 2 * ((t:ℚ)/8388608) < 2 ^ (e - 23) := by
    have h2e : (16:ℚ) * t < 2 ^ (e+1) := by
      calc (16:ℚ)*t = (N:ℚ) := by rw [hN]; push_cast; ring
        _ < 2^(e+1) := hhi
    have he1 : (2:ℚ)^(e+1) = 2 * 2^e := by
      rw [zpow_add₀ hz, zpow_one]; ring
    have h8 : (8:ℚ) * t < 2 ^ e := by linarith
    have ht0 : (0:ℚ) ≤ (t:ℚ) := by positivity
    have hgoal : (2:ℚ) ^ (e - 23) = 2^e / 8388608 := by
      rw [zpow_sub₀ hz, show ((23:ℤ)) = ((23:ℕ):ℤ) by norm_num, zpow_natCast]
      norm_num
    rw [hgoal, lt_div_iff₀ (by norm_num : (0:ℚ) < 8388608)]
    have hsimp : 2 * ((t:ℚ)/8388608) * 8388608 = 2 * t := by
      field_simp
    rw [hsimp]
    linarith
  have hround := roundF32_int_add_small N e ((t:ℚ)/8388608) hlo hint he0 he23
    (by positivity) hf
  unfold nativeWidthModel f32mul
  rw [hprod, hround, u32ofF32_natCast]

/-! ## Register context and the patch callbacks -/

/-- Four 32-bit float lanes of an SSE register, modelled by the exact
rationals they denote. -/
structure XmmReg where
  f32lane0 : ℚ
  f32lane1 : ℚ
  f32lane2 : ℚ
  f32lane3 : ℚ
deriving DecidableEq

/-- The portion of `SafetyHookContext` the verified callbacks touch. -/
structure SafetyHookContext where
  eax : ℕ
  xmm0 : XmmReg
deriving DecidableEq

/-- The callback installed by `resolutionFix` (`src/dllmain.cpp` lines
236-240): when no movie is playing it writes `(float)yml.resolution.width`
into lane 0 of `xmm0`; otherwise it does nothing. -/
def resolutionFixCallback (width : ℕ) (isMoviePlaying : Bool)
    (ctx : SafetyHookContext) : SafetyHookContext :=
  if isMoviePlaying = false then
    { ctx with xmm0 := { ctx.xmm0 with f32lane0 := f32ofNat width } }
  else ctx

/-- The callback installed by `aspectRatioFix` (`src/dllmain.cpp` lines
206-208): unconditionally writes the configured aspect ratio into lane 0
of `xmm0`. -/
def aspectRatioFixCallback (aspectRatio : ℚ) (ctx : SafetyHookContext) :
    SafetyHookContext :=
  { ctx with xmm0 := { ctx.xmm0 with f32lane0 := aspectRatio } }

/-- The two masked guard comparisons of the HUD callback
(`src/dllmain.cpp` line 313):
`((scaler0 & 0xBF000000) == 0xBF000000) && ((scaler1 & 0x3F000000) == 0x3F000000)`. -/
def hudGuard (scaler0 scaler1 : ℕ) : Bool :=
  (Nat.land scaler0 0xBF000000 == 0xBF000000)
    && (Nat.land scaler1 0x3F000000 == 0x3F000000)

/-- The callback installed by `hudElementsFix` (`src/dllmain.cpp` lines
310-318).  Memory is a map from address to raw 32-bit cell contents;
`u32` loads read the raw pattern, `f32` stores write the bit pattern of
the stored float.  It reads `scaler0 = *(u32*)(eax+0x30)` and
`scaler1 = *(u32*)(eax+0x3C)`, and only when both masked guards pass
writes `*(f32*)(eax+0x00) = (2.0f / (f32)width) * ratio` and
`*(f32*)(eax+0x30) = ratio * -1.0f` with
`ratio = (f32)nativeWidth / (f32)width`. -/
def hudElementsFixCallback (nativeWidth width eax : ℕ) (mem : ℕ → ℕ) : ℕ → ℕ :=
  if hudGuard (mem (eax + 0x30)) (mem (eax + 0x3C)) then
    fun a =>
      if a = eax + 0x00 then
        f32bits (f32mul (f32div 2 (f32ofNat width))
          (f32div (f32ofNat nativeWidth) (f32ofNat width)))
      else if a = eax + 0x30 then
        f32bits (f32mul (f32div (f32ofNat nativeWidth) (f32ofNat width)) (-1))
      else mem a
  else mem

/-! ## The `ReadFile` intercept (`src/dllmain.cpp` lines 342-360) -/

/-- The last path component: everything after the last `\` or `/`
separator (how `std::filesystem::path::filename` behaves on the
backslash-separated paths produced by `GetFinalPathNameByHandleA`). -/
def fileNameOf (p : List Char) : List Char :=
  p.foldl (fun acc c => if c = '\\' ∨ c = '/' then [] else acc ++ [c]) []

/-- `std::filesystem::path::extension` on a filename: the suffix starting
at the last dot, except that `.`, `..` and names whose only dot is the
leading character have no extension. -/
def extensionOfFileName (f : List Char) : List Char :=
  if f = ['.'] ∨ f = ['.', '.'] then [] else
  match (f.reverse.drop (f.reverse.takeWhile (fun c => c ≠ '.')).length) with
  | [] => []
  | _ :: restTail =>
    if restTail = [] then []
    else '.' :: (f.reverse.takeWhile (fun c => c ≠ '.')).reverse

/-- The path manipulation performed by the hook body: drop a leading
`\\?\`, then take the extension of the file name. -/
def pathExtension (p : List Char) : List Char :=
  extensionOfFileName (fileNameOf
    (if p.take 4 = ['\\', '\\', '?', '\\'] then p.drop 4 else p))

/-- The five parameters of `ReadFile`, all opaque handles/pointers to the
intercept. -/
structure ReadFileArgs where
  hFile : ℕ
  lpBuffer : ℕ
  nNumberOfBytesToRead : ℕ
  lpNumberOfBytesRead : ℕ
  lpOverlapped : ℕ
deriving DecidableEq

/-- The environment of the intercept: `GetFinalPathNameByHandleA`, which
either resolves a handle to a canonical path or fails (returns zero), and
the original `ReadFile` (reached through `readFileHook.stdcall`), a
state transformer on an abstract I/O world `W` returning a `BOOL`. -/
structure IOEnv (W : Type) where
  finalPathOfHandle : ℕ → Option (List Char)
  origReadFile : ReadFileArgs → W → Bool × W

/-- `kernelBaseDllReadFileHook`: if the handle resolves, set
`isMoviePlaying` to whether the extension equals `".wmv"`; in all cases
forward all five arguments unchanged to the original `ReadFile` and
return its result.  The returned triple is (result, new flag, new world). -/
def kernelBaseDllReadFileHook {W : Type} (env : IOEnv W) (args : ReadFileArgs)
    (isMoviePlaying : Bool) (w : W) : Bool × Bool × W :=
  ((env.origReadFile args w).1,
   (match env.finalPathOfHandle args.hFile with
    | some fileName => pathExtension fileName == ['.', 'w', 'm', 'v']
    | none => isMoviePlaying),
   (env.origReadFile args w).2)

/-! ## Pattern scanner and hook installation -/

/-- Does the signature match the region at its head?  A signature byte is
`some b` for a literal byte and `none` for a wildcard (`??`); every
literal byte must equal the corresponding region byte, wildcards match
unconditionally, and the full pattern must fit in the region. -/
def matchesHere : List (Option ℕ) → List ℕ → Bool
  | [], _ => true
  | _ :: _, [] => false
  | none :: s, _ :: r => matchesHere s r
  | some b :: s, x :: r => (x == b) && matchesHere s r

/-- Modelled from the spec: the scan loop of `Utils::SignatureHook` /
`findPattern` lives in `utils.hpp`, which is not part of this repository's
sources.  Per §4.1 the scanner walks the region byte-by-byte and returns
the first (lowest) offset where the signature matches. -/
def scanAux (sig : List (Option ℕ)) : List ℕ → Option ℕ
  | [] => if matchesHere sig [] then some 0 else none
  | x :: r =>
    if matchesHere sig (x :: r) then some 0
    else (scanAux sig r).map (· + 1)

/-- Modelled from the spec: `scan(region, signature)` returns the first
matching offset, or `none` (NotFound) when no position matches. -/
def scan (region : List ℕ) (sig : List (Option ℕ)) : Option ℕ :=
  scanAux sig region

/-- The four patch units of `dllmain.cpp`, plus the `ReadFile` intercept. -/
inductive HookId
  | readFile
  | aspectRatio
  | resolution
  | hudElements
deriving DecidableEq

/-- Installed hooks and emitted log lines of one initialization run. -/
structure SysState where
  hooks : List HookId
  logs : List String
deriving DecidableEq

/-- What the initialization run finds in the process: the result of
`GetModuleHandleA("KernelBase.dll")`, the result of
`GetProcAddress(-, "ReadFile")`, and the bytes of the game module that
the three signature scans search. -/
structure ScanEnv where
  kernelBaseHandle : Option ℕ
  readFileAddr : Option ℕ
  region : List ℕ

/-- The configuration keys consumed by the hook-installing functions. -/
structure Config where
  masterEnable : Bool
  constrainHudEnable : Bool
deriving DecidableEq

/-- Modelled from the spec: `Utils::injectHook` lives in `utils.hpp`,
which is not part of this repository's sources.  Per §4.3, a policy whose
enable predicate is false or whose signature is not found is never
installed, observably only via a log message. -/
def injectHook (enable : Bool) (region : List ℕ) (sig : List (Option ℕ))
    (id : HookId) (s : SysState) : SysState :=
  if enable then
    match scan region sig with
    | some _ => { s with hooks := s.hooks ++ [id], logs := s.logs ++ ["Hooked"] }
    | none => { s with logs := s.logs ++ ["Signature not found"] }
  else { s with logs := s.logs ++ ["Disabled"] }

/-- The byte signature of `aspectRatioFix`
(`"F3 0F 11 05 ?? ?? ?? ??    E8 ?? ?? ?? ??    89 EC"`). -/
def aspectRatioSig : List (Option ℕ) :=
  [some 0xF3, some 0x0F, some 0x11, some 0x05, none, none, none, none,
   some 0xE8, none, none, none, none, some 0x89, some 0xEC]

/-- The byte signature of `resolutionFix`
(`"76 ??    F3 0F 59 05 ?? ?? ?? ??    F3 0F 5E 05 ?? ?? ?? ??    E8 ?? ?? ?? ??"`). -/
def resolutionSig : List (Option ℕ) :=
  [some 0x76, none, some 0xF3, some 0x0F, some 0x59, some 0x05,
   none, none, none, none, some 0xF3, some 0x0F, some 0x5E, some 0x05,
   none, none, none, none, some 0xE8, none, none, none, none]

/-- The byte signature of `hudElementsFix`
(`"F3 0F 6F 00    F3 0F 7F 41 0C    F3 0F 6F 40 10"`). -/
def hudElementsSig : List (Option ℕ) :=
  [some 0xF3, some 0x0F, some 0x6F, some 0x00, some 0xF3, some 0x0F,
   some 0x7F, some 0x41, some 0x0C, some 0xF3, some 0x0F, some 0x6F,
   some 0x40, some 0x10]

/-- `moviesFix` (`src/dllmain.cpp` lines 413-434): when the master switch
is on, resolve `KernelBase.dll`, then the `ReadFile` export, and hook it;
each failure is logged and only skips this fix. -/
def moviesFix (cfg : Config) (env : ScanEnv) (s : SysState) : SysState :=
  if cfg.masterEnable = true then
    match env.kernelBaseHandle with
    | none => { s with logs := s.logs ++ ["Failed to get handle to KernelBase.dll"] }
    | some _ =>
      match env.readFileAddr with
      | none => { s with logs := s.logs ++ ["Failed to get address of ReadFile"] }
      | some _ =>
        { s with hooks := s.hooks ++ [HookId.readFile],
                 logs := s.logs ++ ["Hooked ReadFile"] }
  else s

/-- `aspectRatioFix` (lines 201-210): enabled by `masterEnable` alone. -/
def aspectRatioFix (cfg : Config) (env : ScanEnv) (s : SysState) : SysState :=
  injectHook cfg.masterEnable env.region aspectRatioSig HookId.aspectRatio s

/-- `resolutionFix` (lines 228-242): enabled by `masterEnable` alone. -/
def resolutionFix (cfg : Config) (env : ScanEnv) (s : SysState) : SysState :=
  injectHook cfg.masterEnable env.region resolutionSig HookId.resolution s

/-- `hudElementsFix` (lines 305-320): enabled by
`masterEnable && features.constrainHud.enable`. -/
def hudElementsFix (cfg : Config) (env : ScanEnv) (s : SysState) : SysState :=
  injectHook (cfg.masterEnable && cfg.constrainHudEnable) env.region
    hudElementsSig HookId.hudElements s

/-- `Main` (lines 445-453): the initialization sequence of the worker
thread, restricted to the four hook-installing calls (logging setup and
the configuration read do not touch hooks). -/
def Main (cfg : Config) (env : ScanEnv) (s : SysState) : SysState :=
  hudElementsFix cfg env (resolutionFix cfg env (aspectRatioFix cfg env
    (moviesFix cfg env s)))

/-! ## Scanner lemmas -/

theorem matchesHere_map_some (bytes t : List ℕ) :
    matchesHere (bytes.map some) (bytes ++ t) = true := by
  induction bytes with
  | nil => rfl
  | cons b bs ih => simp [matchesHere, ih]

theorem matchesHere_map_some_iff (bytes : List ℕ) : ∀ (l : List ℕ),
    matchesHere (bytes.map some) l = true ↔ ∃ t, l = bytes ++ t := by
  induction bytes with
  | nil =>
    intro l
    simp [matchesHere]
  | cons b bs ih =>
    intro l
    cases l with
    | nil => simp [matchesHere]
    | cons x r =>
      simp only [List.map, matchesHere, Bool.and_eq_true, beq_iff_eq]
      rw [ih r]
      constructor
      · rintro ⟨rfl, t, rfl⟩
        exact ⟨t, rfl⟩
      · rintro ⟨t, ht⟩
        injection ht with h1 h2
        exact ⟨h1, ⟨t, h2⟩⟩

theorem scanAux_sound (sig : List (Option ℕ)) :
    ∀ (l : List ℕ) (j : ℕ), scanAux sig l = some j →
      matchesHere sig (l.drop j) = true ∧
      ∀ k, k < j → matchesHere sig (l.drop k) = false := by
  intro l
  induction l with
  | nil =>
    intro j h
    simp only [scanAux] at h
    by_cases hm : matchesHere sig [] = true
    · rw [if_pos hm] at h
      injection h with h0
      subst h0
      exact ⟨by simpa using hm, fun k hk => absurd hk (by omega)⟩
    · rw [if_neg hm] at h
      exact absurd h (by simp)
  | cons x r ih =>
    intro j h
    simp only [scanAux] at h
    by_cases hm : matchesHere sig (x :: r) = true
    · rw [if_pos hm] at h
      injection h with h0
      subst h0
      exact ⟨by simpa using hm, fun k hk => absurd hk (by omega)⟩
    · rw [if_neg hm] at h
      have hmf : matchesHere sig (x :: r) = false := by simpa using hm
      rcases ho : scanAux sig r with _ | j'
      · rw [ho] at h; simp at h
      · rw [ho] at h
        have h0 : j' + 1 = j := by simpa using h
        subst h0
        obtain ⟨hmatch, hmin⟩ := ih j' ho
        refine ⟨by simpa [List.drop_succ_cons] using hmatch, ?_⟩
        intro k hk
        match k with
        | 0 => simpa using hmf
        | k+1 =>
          have hk2 : k < j' := by omega
          simpa [List.drop_succ_cons] using hmin k hk2

theorem scanAux_none (sig : List (Option ℕ)) :
    ∀ (l : List ℕ), scanAux sig l = none →
      ∀ k, matchesHere sig (l.drop k) = false := by
  intro l
  induction l with
  | nil =>
    intro h k
    simp only [scanAux] at h
    by_cases hm : matchesHere sig [] = true
    · rw [if_pos hm] at h; simp at h
    · have hmf : matchesHere sig [] = false := by simpa using hm
      simpa using hmf
  | cons x r ih =>
    intro h k
    simp only [scanAux] at h
    by_cases hm : matchesHere sig (x :: r) = true
    · rw [if_pos hm] at h; simp at h
    · have hmf : matchesHere sig (x :: r) = false := by simpa using hm
      rw [if_neg hm] at h
      have hr : scanAux sig r = none := by
        rcases ho : scanAux sig r with _ | j'
        · rfl
        · rw [ho] at h; simp at h
      match k with
      | 0 => simpa using hmf
      | k+1 => simpa [List.drop_succ_cons] using ih hr k

theorem scan_isSome_of_match (sig : List (Option ℕ)) (l : List ℕ) (j : ℕ)
    (h : matchesHere sig (l.drop j) = true) : ∃ i, scan l sig = some i := by
  rcases ho : scanAux sig l with _ | i
  · have := scanAux_none sig l ho j
    rw [h] at this
    exact absurd this (by simp)
  · exact ⟨i, ho⟩

/-! ## Claim theorems -/

/-- A memory whose field at +0x30 has top byte 0xFF (not 0xBF) and whose
field at +0x3C is 1.0f (top byte 0x3F): the masked guard still passes. -/
def hudMemTopFF : ℕ → ℕ := fun a =>
  if a = 0x30 then 0xFF000000 else if a = 0x3C then 0x3F800000 else 0

/-- A memory holding -1.0f at +0x30 and 1.0f at +0x3C: the intended
guard-passing shape. -/
def hudMemPass : ℕ → ℕ := fun a =>
  if a = 0x30 then 0xBF800000 else if a = 0x3C then 0x3F800000 else 0

/-- Claim C1, counterexample: the claim says the fields are mutated only
when the first field's top byte is 0xBF, but the code's masked comparison
`(scaler0 & 0xBF000000) == 0xBF000000` also passes when the top byte is
0xFF, and the callback then mutates the field at +0x30. -/
theorem hudGuard_mutates_on_topFF :
    hudElementsFixCallback 2560 3440 0 hudMemTopFF 0x30 ≠ hudMemTopFF 0x30
      ∧ hudMemTopFF 0x30 / 2 ^ 24 = 0xFF
      ∧ (0xFF : ℕ) ≠ 0xBF := by
  decide

/-- Claim C1 (amended): the HUD callback mutates memory only when the two
masked comparisons `(scaler0 & 0xBF000000) == 0xBF000000` and
`(scaler1 & 0x3F000000) == 0x3F000000` both hold for the fields read at
+0x30 and +0x3C (so a top byte of 0xFF also passes the first guard); in
particular, if either field's top byte is 0x00, the callback applies no
mutation and memory is left unmodified. -/
theorem hudGuard_masked_only :
    ∀ (nativeWidth width eax : ℕ) (mem : ℕ → ℕ),
      (hudElementsFixCallback nativeWidth width eax mem ≠ mem →
        Nat.land (mem (eax + 0x30)) 0xBF000000 = 0xBF000000
          ∧ Nat.land (mem (eax + 0x3C)) 0x3F000000 = 0x3F000000)
      ∧ (mem (eax + 0x30) < 2 ^ 32 → mem (eax + 0x30) / 2 ^ 24 = 0 →
          hudElementsFixCallback nativeWidth width eax mem = mem)
      ∧ (mem (eax + 0x3C) < 2 ^ 32 → mem (eax + 0x3C) / 2 ^ 24 = 0 →
          hudElementsFixCallback nativeWidth width eax mem = mem) := by
  intro nw w eax mem
  refine ⟨?_, ?_, ?_⟩
  · intro hne
    by_cases hg : hudGuard (mem (eax + 0x30)) (mem (eax + 0x3C)) = true
    · unfold hudGuard at hg
      simp only [Bool.and_eq_true, beq_iff_eq] at hg
      exact hg
    · refine absurd ?_ hne
      unfold hudElementsFixCallback
      rw [if_neg hg]
  · intro hlt h0
    have hsmall : mem (eax + 0x30) < 2 ^ 24 := by omega
    have hland : Nat.land (mem (eax + 0x30)) 0xBF000000 ≠ 0xBF000000 := by
      have hle : Nat.land (mem (eax + 0x30)) 0xBF000000 ≤ mem (eax + 0x30) :=
        Nat.and_le_left
      omega
    have hg : ¬ hudGuard (mem (eax + 0x30)) (mem (eax + 0x3C)) = true := by
      unfold hudGuard
      simp [hland]
    unfold hudElementsFixCallback
    rw [if_neg hg]
  · intro hlt h0
    have hsmall : mem (eax + 0x3C) < 2 ^ 24 := by omega
    have hland : Nat.land (mem (eax + 0x3C)) 0x3F000000 ≠ 0x3F000000 := by
      have hle : Nat.land (mem (eax + 0x3C)) 0x3F000000 ≤ mem (eax + 0x3C) :=
        Nat.and_le_left
      omega
    have hg : ¬ hudGuard (mem (eax + 0x30)) (mem (eax + 0x3C)) = true := by
      unfold hudGuard
      simp [hland]
    unfold hudElementsFixCallback
    rw [if_neg hg]

/-- Witness for the amended claim C1 at a concrete input: on an
all-zero memory (top bytes 0x00) the callback changes nothing. -/
theorem hudGuard_masked_only_witness :
    hudElementsFixCallback 2560 3440 0 (fun _ => 0) = (fun _ => 0) :=
  (hudGuard_masked_only 2560 3440 0 (fun _ => 0)).2.1 (by norm_num) (by norm_num)

/-- Claim C4: whenever both guard checks pass, the HUD callback computes
`ratio = (f32)nativeWidth / (f32)width` and stores
field-A = `(2.0f / (f32)width) * ratio` at +0x00 and field-B = `-ratio`
at +0x30 (the code's `ratio * -1.0f` equals the negation exactly); at
width 7680 with nativeWidth 3840 this gives ratio = 1/2,
field-A = (2/7680)·(1/2) as floats = 8947849·2⁻³⁶ and field-B = -1/2,
and at width 3440 with nativeWidth 2560 it gives
ratio = fl(2560/3440) = 6242685·2⁻²³, field-A = 14866301·2⁻³⁵ and
field-B = -ratio. -/
theorem hudFormula :
    (∀ (nativeWidth width eax : ℕ) (mem : ℕ → ℕ),
      hudGuard (mem (eax + 0x30)) (mem (eax + 0x3C)) = true →
        hudElementsFixCallback nativeWidth width eax mem (eax + 0x00)
            = f32bits (f32mul (f32div 2 (f32ofNat width))
                (f32div (f32ofNat nativeWidth) (f32ofNat width)))
          ∧ hudElementsFixCallback nativeWidth width eax mem (eax + 0x30)
            = f32bits (-(f32div (f32ofNat nativeWidth) (f32ofNat width))))
    ∧ f32div (f32ofNat 3840) (f32ofNat 7680) = 1/2
    ∧ f32mul (f32div 2 (f32ofNat 7680)) (f32div (f32ofNat 3840) (f32ofNat 7680))
        = 8947849 / 68719476736
    ∧ f32mul (f32div (f32ofNat 3840) (f32ofNat 7680)) (-1) = -(1/2)
    ∧ f32div (f32ofNat 2560) (f32ofNat 3440) = 6242685 / 8388608
    ∧ f32mul (f32div 2 (f32ofNat 3440)) (f32div (f32ofNat 2560) (f32ofNat 3440))
        = 14866301 / 34359738368
    ∧ f32mul (f32div (f32ofNat 2560) (f32ofNat 3440)) (-1)
        = -(6242685 / 8388608) := by
  refine ⟨?_, by decide, by decide, by decide, by decide, by decide, by decide⟩
  intro nw w eax mem hg
  unfold hudElementsFixCallback
  rw [if_pos hg]
  constructor
  · simp
  · rw [if_neg (by omega : ¬ eax + 0x30 = eax + 0x00), if_pos rfl, f32div_mul_neg_one]

/-- Witness for claim C4 at a concrete guard-passing memory. -/
theorem hudFormula_witness :
    hudElementsFixCallback 2560 3440 0 hudMemPass (0 + 0x00)
        = f32bits (f32mul (f32div 2 (f32ofNat 3440))
            (f32div (f32ofNat 2560) (f32ofNat 3440)))
      ∧ hudElementsFixCallback 2560 3440 0 hudMemPass (0 + 0x30)
        = f32bits (-(f32div (f32ofNat 2560) (f32ofNat 3440))) :=
  hudFormula.1 2560 3440 0 hudMemPass (by decide)

/-- Claim C3: on every invocation of the resolution-override callback,
when the movie flag is false it writes `(float)width` into lane 0 of
`xmm0`, and when the flag is true it leaves the register context exactly
as it was. -/
theorem resolutionOverride :
    ∀ (width : ℕ) (isMoviePlaying : Bool) (ctx : SafetyHookContext),
      (isMoviePlaying = false →
        resolutionFixCallback width isMoviePlaying ctx
          = { ctx with xmm0 := { ctx.xmm0 with f32lane0 := f32ofNat width } })
      ∧ (isMoviePlaying = true →
        resolutionFixCallback width isMoviePlaying ctx = ctx) := by
  intro w b ctx
  constructor
  · intro hb
    subst hb
    rfl
  · intro hb
    subst hb
    rfl

/-- A concrete register context. -/
def ctxZero : SafetyHookContext :=
  { eax := 0, xmm0 := { f32lane0 := 0, f32lane1 := 0, f32lane2 := 0, f32lane3 := 0 } }

/-- Witness for claim C3: with the flag set, the context is untouched. -/
theorem resolutionOverride_witness :
    resolutionFixCallback 3440 true ctxZero = ctxZero :=
  (resolutionOverride 3440 true ctxZero).2 rfl

/-- A canonical path of a cutscene video, as resolved from a file handle. -/
def moviePathEx : List Char :=
  ("C:\\Games\\GodEater\\data\\GameData\\movie\\intro.wmv").toList

/-- A canonical path of a script archive read right after a movie. -/
def scriptPathEx : List Char :=
  ("C:\\Games\\GodEater\\data\\script.qpck").toList

/-- A concrete intercept environment: handle 1 resolves to the movie
path, handle 2 to the script path, and the original `ReadFile` succeeds
without touching the world. -/
def ioEnvExample : IOEnv Unit :=
  { finalPathOfHandle := fun h =>
      if h = 1 then some moviePathEx else if h = 2 then some scriptPathEx else none,
    origReadFile := fun _ w => (true, w) }

/-- A read request on the movie-file handle. -/
def argsMovie : ReadFileArgs :=
  { hFile := 1, lpBuffer := 0, nNumberOfBytesToRead := 4096,
    lpNumberOfBytesRead := 0, lpOverlapped := 0 }

/-- A read request on the script-file handle. -/
def argsScript : ReadFileArgs :=
  { hFile := 2, lpBuffer := 0, nNumberOfBytesToRead := 4096,
    lpNumberOfBytesRead := 0, lpOverlapped := 0 }

/-- Claim C2: whenever the intercepted handle resolves to a path, the
movie flag is set to true iff the path's extension is ".wmv"; concretely,
a read on a handle resolving to `...\movie\intro.wmv` sets the flag true
and a subsequent read on a handle resolving to `...\data\script.qpck`
sets it false. -/
theorem movieFlagIffWmv :
    (∀ (W : Type) (env : IOEnv W) (args : ReadFileArgs) (flag : Bool) (w : W)
        (p : List Char), env.finalPathOfHandle args.hFile = some p →
        ((kernelBaseDllReadFileHook env args flag w).2.1 = true
          ↔ pathExtension p = ['.', 'w', 'm', 'v']))
    ∧ (kernelBaseDllReadFileHook ioEnvExample argsMovie false ()).2.1 = true
    ∧ (kernelBaseDllReadFileHook ioEnvExample argsScript
        (kernelBaseDllReadFileHook ioEnvExample argsMovie false ()).2.1 ()).2.1
        = false := by
  refine ⟨?_, by decide, by decide⟩
  intro W env args flag w p hp
  unfold kernelBaseDllReadFileHook
  rw [hp]
  simp

/-- Witness for claim C2 on the concrete movie-path environment. -/
theorem movieFlagIffWmv_witness :
    (kernelBaseDllReadFileHook ioEnvExample argsMovie false ()).2.1 = true
      ↔ pathExtension moviePathEx = ['.', 'w', 'm', 'v'] :=
  movieFlagIffWmv.1 Unit ioEnvExample argsMovie false () moviePathEx rfl

/-- Claim C6: the `ReadFile` intercept forwards all five parameters
unchanged to the original primitive and returns that primitive's exact
result and world effect; only the movie flag component of the state may
differ. -/
theorem readFileForwarding :
    ∀ (W : Type) (env : IOEnv W) (args : ReadFileArgs) (flag : Bool) (w : W),
      (kernelBaseDllReadFileHook env args flag w).1 = (env.origReadFile args w).1
      ∧ (kernelBaseDllReadFileHook env args flag w).2.2
          = (env.origReadFile args w).2 := by
  intro W env args flag w
  exact ⟨rfl, rfl⟩

/-- Claim C10: when `GetFinalPathNameByHandleA` fails (returns zero), the
intercept leaves the movie flag at its previous value — it is not
unconditionally overwritten — and still forwards the call to the
original primitive. -/
theorem movieFlagKeptOnResolveFailure :
    ∀ (W : Type) (env : IOEnv W) (args : ReadFileArgs) (flag : Bool) (w : W),
      env.finalPathOfHandle args.hFile = none →
        (kernelBaseDllReadFileHook env args flag w).2.1 = flag
        ∧ (kernelBaseDllReadFileHook env args flag w).1 = (env.origReadFile args w).1
        ∧ (kernelBaseDllReadFileHook env args flag w).2.2
            = (env.origReadFile args w).2 := by
  intro W env args flag w hp
  unfold kernelBaseDllReadFileHook
  rw [hp]
  exact ⟨rfl, rfl, rfl⟩

/-- An intercept environment whose path resolution always fails. -/
def ioEnvNoResolve : IOEnv Unit :=
  { finalPathOfHandle := fun _ => none,
    origReadFile := fun _ w => (true, w) }

/-- Witness for claim C10: with resolution failing, a true flag stays true. -/
theorem movieFlagKeptOnResolveFailure_witness :
    (kernelBaseDllReadFileHook ioEnvNoResolve argsMovie true ()).2.1 = true
      ∧ (kernelBaseDllReadFileHook ioEnvNoResolve argsMovie true ()).1
          = (ioEnvNoResolve.origReadFile argsMovie ()).1
      ∧ (kernelBaseDllReadFileHook ioEnvNoResolve argsMovie true ()).2.2
          = (ioEnvNoResolve.origReadFile argsMovie ()).2 :=
  movieFlagKeptOnResolveFailure Unit ioEnvNoResolve argsMovie true () rfl

/-- Claim C5, counterexample: the claim says
`nativeWidth = round(16/9 * height)` for every configuration, but at
height 1050 (e.g. a 1680x1050 desktop) the code's float product
truncated to `u32` gives 1866 while `round(16/9 * 1050) = round(1866.67)`
is 1867. -/
theorem nativeWidth_not_rounded :
    nativeWidthModel 1050 = 1866
      ∧ round ((16:ℚ)/9 * 1050) = 1867 := by
  constructor
  · decide
  · decide

/-- Claim C5 (amended): `nativeWidth` is the 32-bit-float product
`fl(16/9) * (f32)height` truncated toward zero — equal to the exact
`16*height/9` whenever 9 divides the height and the result fits in 24
bits, but not `round(16/9*height)` in general; when
`nativeWidth ≤ width < 2^24`, `nativeOffset = (width - nativeWidth) / 2`
by integer division; `widthScalingFactor` is the binary32 rounding of
`width / nativeWidth`; and width 3440, height 1440 yield
nativeWidth 2560, nativeOffset 440, and widthScalingFactor exactly the
rational 3440/2560. -/
theorem derivedValues :
    (∀ t : ℕ, 0 < t → 16 * t < 2 ^ 24 → nativeWidthModel (9 * t) = 16 * t)
    ∧ (∀ width height : ℕ, nativeWidthModel height ≤ width → width < 2 ^ 24 →
        nativeOffsetModel width height = (width - nativeWidthModel height) / 2)
    ∧ (∀ width height : ℕ, width ≤ 2 ^ 24 → nativeWidthModel height ≤ 2 ^ 24 →
        0 < nativeWidthModel height →
        widthScalingFactorModel width height
          = roundF32 ((width : ℚ) / (nativeWidthModel height : ℚ)))
    ∧ nativeWidthModel 1440 = 2560
    ∧ nativeOffsetModel 3440 1440 = 440
    ∧ widthScalingFactorModel 3440 1440 = 3440 / 2560 := by
  refine ⟨?_, ?_, ?_, by decide, by decide, by decide⟩
  · intro t ht hlt
    exact nativeWidthModel_exact t ht hlt
  · intro w h hle hlt
    unfold nativeOffsetModel
    have hdiff : (w + 2 ^ 32 - nativeWidthModel h) % 2 ^ 32 = w - nativeWidthModel h := by
      omega
    rw [hdiff, f32div_natCast_two _ (by omega), u32ofF32_half]
  · intro w h hw hnw hnw0
    unfold widthScalingFactorModel f32div
    rw [f32ofNat_eq w hw, f32ofNat_eq _ hnw,
      if_neg (by exact_mod_cast Nat.pos_iff_ne_zero.1 hnw0 :
        ¬ ((nativeWidthModel h : ℚ) = 0))]

/-- Witness for the amended claim C5 at the spec's own test values. -/
theorem derivedValues_witness :
    nativeWidthModel (9 * 160) = 16 * 160
      ∧ nativeOffsetModel 3440 1440 = (3440 - nativeWidthModel 1440) / 2 :=
  ⟨derivedValues.1 160 (by norm_num) (by norm_num),
   derivedValues.2.1 3440 1440 (by decide) (by decide)⟩

/-- The hooks a single `injectHook` call appends. -/
def installsIf (enable : Bool) (region : List ℕ) (sig : List (Option ℕ))
    (id : HookId) : List HookId :=
  if enable = true then
    (match scan region sig with
     | some _ => [id]
     | none => [])
  else []

theorem injectHook_hooks (enable : Bool) (region : List ℕ)
    (sig : List (Option ℕ)) (id : HookId) (s : SysState) :
    (injectHook enable region sig id s).hooks
      = s.hooks ++ installsIf enable region sig id := by
  unfold injectHook installsIf
  cases enable
  · simp
  · rcases scan region sig with _ | i <;> simp

theorem readFile_not_mem_installsIf (enable : Bool) (region : List ℕ)
    (sig : List (Option ℕ)) (id : HookId) (hid : id ≠ HookId.readFile) :
    HookId.readFile ∉ installsIf enable region sig id := by
  unfold installsIf
  cases enable
  · simp
  · rcases scan region sig with _ | i <;> simp [Ne.symm hid]

/-- An empty system state: no hooks, no logs. -/
def stateEmpty : SysState := { hooks := [], logs := [] }

/-- A configuration with the master switch off. -/
def cfgDisabled : Config := { masterEnable := false, constrainHudEnable := true }

/-- A configuration with every switch on. -/
def cfgAllEnabled : Config := { masterEnable := true, constrainHudEnable := true }

/-- A module region containing all three signatures (wildcards filled with
0x90), with `KernelBase.dll` handle resolution failing. -/
def envNoKernelBase : ScanEnv :=
  { kernelBaseHandle := none, readFileAddr := none,
    region := (aspectRatioSig ++ resolutionSig ++ hudElementsSig).map
      (fun o => o.getD 0x90) }

/-- An environment where nothing resolves and the region is empty. -/
def envEmpty : ScanEnv :=
  { kernelBaseHandle := none, readFileAddr := none, region := [] }

/-- Claim C7: with `masterEnable` false, initialization installs zero
hooks, and running initialization a second time under the same
configuration again yields zero installed hooks. -/
theorem masterDisableInstallsNothing :
    ∀ (cfg : Config) (env : ScanEnv) (s : SysState),
      cfg.masterEnable = false → s.hooks = [] →
        (Main cfg env s).hooks = []
        ∧ (Main cfg env (Main cfg env s)).hooks = [] := by
  intro cfg env s hcfg hs
  have hstep : ∀ s' : SysState, (Main cfg env s').hooks = s'.hooks := by
    intro s'
    unfold Main aspectRatioFix resolutionFix hudElementsFix
    rw [injectHook_hooks, injectHook_hooks, injectHook_hooks]
    unfold moviesFix
    rw [if_neg (by simp [hcfg])]
    simp [installsIf, hcfg]
  constructor
  · rw [hstep, hs]
  · rw [hstep, hstep, hs]

/-- Witness for claim C7 on a concrete disabled configuration. -/
theorem masterDisableInstallsNothing_witness :
    (Main cfgDisabled envEmpty stateEmpty).hooks = []
      ∧ (Main cfgDisabled envEmpty (Main cfgDisabled envEmpty stateEmpty)).hooks = [] :=
  masterDisableInstallsNothing cfgDisabled envEmpty stateEmpty rfl rfl

/-- Claim C8: when the movie fix cannot resolve the `KernelBase.dll`
module handle or the `ReadFile` export, that fix alone is skipped after
logging a message, initialization does not abort, and the remaining
fixes still run (installing exactly what they would have installed
anyway); concretely, with the handle unresolvable and all three
signatures present, initialization still installs the aspect-ratio,
resolution and HUD hooks. -/
theorem movieFixFailureContained :
    (∀ (cfg : Config) (env : ScanEnv) (s : SysState),
      cfg.masterEnable = true →
      (env.kernelBaseHandle = none ∨ env.readFileAddr = none) →
        (∃ msg, moviesFix cfg env s = { s with logs := s.logs ++ [msg] })
        ∧ (Main cfg env s).hooks
            = (hudElementsFix cfg env (resolutionFix cfg env
                (aspectRatioFix cfg env s))).hooks
        ∧ (HookId.readFile ∉ s.hooks → HookId.readFile ∉ (Main cfg env s).hooks))
    ∧ (Main cfgAllEnabled envNoKernelBase stateEmpty).hooks
        = [HookId.aspectRatio, HookId.resolution, HookId.hudElements] := by
  constructor
  · intro cfg env s hme hfail
    have hmovie : ∃ msg, moviesFix cfg env s = { s with logs := s.logs ++ [msg] } := by
      rcases henv : env.kernelBaseHandle with _ | hb
      · refine ⟨"Failed to get handle to KernelBase.dll", ?_⟩
        unfold moviesFix
        rw [if_pos hme, henv]
      · rcases hfail with hnone | haddr
        · rw [henv] at hnone
          exact absurd hnone (by simp)
        · refine ⟨"Failed to get address of ReadFile", ?_⟩
          unfold moviesFix
          rw [if_pos hme, henv, haddr]
    obtain ⟨msg, hmv⟩ := hmovie
    have hhooks : (Main cfg env s).hooks
        = (hudElementsFix cfg env (resolutionFix cfg env
            (aspectRatioFix cfg env s))).hooks := by
      unfold Main aspectRatioFix resolutionFix hudElementsFix
      rw [hmv, injectHook_hooks, injectHook_hooks, injectHook_hooks,
        injectHook_hooks, injectHook_hooks, injectHook_hooks]
    refine ⟨⟨msg, hmv⟩, hhooks, ?_⟩
    intro hnotin
    rw [hhooks]
    unfold hudElementsFix resolutionFix aspectRatioFix
    rw [injectHook_hooks, injectHook_hooks, injectHook_hooks]
    simp only [List.mem_append]
    push_neg
    refine ⟨⟨⟨hnotin, ?_⟩, ?_⟩, ?_⟩
    · exact readFile_not_mem_installsIf _ _ _ _ (by simp)
    · exact readFile_not_mem_installsIf _ _ _ _ (by simp)
    · exact readFile_not_mem_installsIf _ _ _ _ (by simp)
  · decide

/-- Witness for claim C8 at the concrete failing environment. -/
theorem movieFixFailureContained_witness :
    (Main cfgAllEnabled envNoKernelBase stateEmpty).hooks
        = (hudElementsFix cfgAllEnabled envNoKernelBase
            (resolutionFix cfgAllEnabled envNoKernelBase
              (aspectRatioFix cfgAllEnabled envNoKernelBase stateEmpty))).hooks :=
  (movieFixFailureContained.1 cfgAllEnabled envNoKernelBase stateEmpty rfl
    (Or.inl rfl)).2.1

/-- Claim C9: for a signature with zero wildcard bytes, scanning a region
that contains an injected exact copy of the signature bytes returns a
defined offset that is a match, no later than the injection point, and
minimal (the first, lowest-address match); scanning a region that
nowhere contains the byte sequence returns NotFound. -/
theorem scanFindsInjectedCopy :
    (∀ (bytes pre suf region : List ℕ), bytes ≠ [] →
      region = pre ++ (bytes ++ suf) →
        ∃ j, scan region (bytes.map some) = some j ∧ j ≤ pre.length
          ∧ matchesHere (bytes.map some) (region.drop j) = true
          ∧ ∀ k, k < j → matchesHere (bytes.map some) (region.drop k) = false)
    ∧ (∀ (bytes region : List ℕ),
        (∀ pre suf, region ≠ pre ++ (bytes ++ suf)) →
        scan region (bytes.map some) = none) := by
  constructor
  · intro bytes pre suf region hb hreg
    subst hreg
    have hmatch : matchesHere (bytes.map some)
        ((pre ++ (bytes ++ suf)).drop pre.length) = true := by
      rw [List.drop_left]
      exact matchesHere_map_some bytes suf
    obtain ⟨i, hi⟩ := scan_isSome_of_match _ _ _ hmatch
    obtain ⟨hm, hmin⟩ := scanAux_sound _ _ _ hi
    refine ⟨i, hi, ?_, hm, hmin⟩
    by_contra hgt
    push_neg at hgt
    have hfalse := hmin pre.length hgt
    rw [hfalse] at hmatch
    exact absurd hmatch (by simp)
  · intro bytes region habsent
    rcases ho : scan region (bytes.map some) with _ | i
    · rfl
    · obtain ⟨hm, _⟩ := scanAux_sound _ _ _ ho
      rw [matchesHere_map_some_iff] at hm
      obtain ⟨t, ht⟩ := hm
      have hsplit : region = region.take i ++ (bytes ++ t) := by
        rw [← ht]
        exact (List.take_append_drop i region).symm
      exact absurd hsplit (habsent _ _)

/-- Witness for claim C9 on a concrete region with an injected copy. -/
theorem scanFindsInjectedCopy_witness :
    scan [9, 9, 1, 2, 3, 7] ([1, 2, 3].map some) = some 2 := by
  obtain ⟨j, hj, hle, hm, hmin⟩ :=
    scanFindsInjectedCopy.1 [1, 2, 3] [9, 9] [7] [9, 9, 1, 2, 3, 7] (by decide) rfl
  rw [hj]
  have hle2 : j ≤ 2 := by simpa using hle
  interval_cases j
  · exfalso; revert hm; decide
  · exfalso; revert hm; decide
  · rfl
